import Mathlib

/-!
Verification of the entry-extraction and annotation engine of the
wiktionarifier repository (src/wiktionarifier/format/core.py), via a shallow
embedding of its data model and operations in Lean.
-/

namespace Wikt

/-! ## Link-span tagger (format_conllu, per-entry loop, core.py lines 226-271) -/

/-- The whitespace characters recognized by Python str.isspace (ASCII range). -/
def pyWsChars : List Char := [' ', '\t', '\n', '\x0b', '\x0c', '\r']

/-- Python str.isspace: nonempty and every character is whitespace. -/
def pyIsSpace (s : String) : Bool :=
  !s.isEmpty && s.toList.all (fun c => pyWsChars.contains c)

/-- Mirror of the test token[:3] == "<a " that recognizes an opening
hyperlink sentinel (core.py line 248). -/
def isOpenTok (t : String) : Bool := t.take 3 == "<a "

/-- Mirror of the test token == "</a>" that recognizes the closing
hyperlink sentinel (core.py line 251). -/
def isCloseTok (t : String) : Bool := t == "</a>"

/-- A raw token that is neither sentinel nor whitespace-only: exactly the
tokens the per-entry loop emits (the final elif branch, core.py line 253). -/
def isRealTok (t : String) : Bool := !isOpenTok t && !isCloseTok t && !pyIsSpace t

/-- One emitted token of a Record Block: the fields of the token_attrs dict
that the loop actually varies (id, form, and the misc fields Href / BIOLU);
the remaining CoNLL-U columns are constant None in the source. -/
structure AnnTok where
  id : Nat
  form : String
  biolu : String
  href : Option String
deriving DecidableEq

/-- The mutable state of the per-entry loop of format_conllu:
href (pending link target), inside_link, token_count. -/
structure TagSt where
  href : Option String
  inside : Bool
  count : Nat
deriving DecidableEq

/-- Python truthiness of the href variable (None and the empty string are
falsy) as tested by the line if href: (core.py line 256). -/
def truthyHref : Option String → Bool
  | none => false
  | some s => !s.isEmpty

/-- The per-entry tagging loop of format_conllu (core.py lines 247-271),
one recursive step per raw token.  The href extraction from the opening
sentinel string (done via an HTML parse in the source) is abstracted as the
function parameter gh.  Reading entry[token_index + 1] past the end of the
entry is a Python IndexError, modelled as the result none. -/
def tagLoop (gh : String → String) : List String → TagSt → Option (List AnnTok)
  | [], _ => some []
  | t :: rest, st =>
    if isOpenTok t then
      tagLoop gh rest { st with href := some (gh t), inside := true }
    else if isCloseTok t then
      tagLoop gh rest { st with inside := false }
    else if pyIsSpace t then
      tagLoop gh rest st
    else
      if truthyHref st.href then
        match rest.head? with
        | none => none
        | some next =>
          (tagLoop gh rest { href := none, inside := st.inside, count := st.count + 1 }).map
            (fun out =>
              ⟨st.count + 1, t, if next == "</a>" then "U" else "B",
                some (st.href.getD "")⟩ :: out)
      else if st.inside then
        match rest.head? with
        | none => none
        | some next =>
          (tagLoop gh rest { st with count := st.count + 1 }).map
            (fun out => ⟨st.count + 1, t, if next == "</a>" then "L" else "I", none⟩ :: out)
      else
        (tagLoop gh rest { st with count := st.count + 1 }).map
          (fun out => ⟨st.count + 1, t, "O", none⟩ :: out)

/-- The Link-Span Tagger applied to one Raw Entry: the per-entry loop of
format_conllu started from href=None, inside_link=False, token_count=0. -/
def tagTokens (gh : String → String) (entry : List String) : Option (List AnnTok) :=
  tagLoop gh entry ⟨none, false, 0⟩

theorem tagLoop_forms_ids (gh : String → String) :
    ∀ (e : List String) (st : TagSt) (ts : List AnnTok),
      tagLoop gh e st = some ts →
      ts.map (fun a => a.form) = e.filter (fun t => isRealTok t) ∧
      ts.map (fun a => a.id) =
        List.range' (st.count + 1) (e.filter (fun t => isRealTok t)).length := by
  intro e
  induction e with
  | nil =>
    intro st ts h
    simp [tagLoop] at h
    simp [← h]
  | cons t rest ih =>
    intro st ts h
    simp only [tagLoop] at h
    by_cases ho : isOpenTok t
    · rw [if_pos ho] at h
      have := ih _ _ h
      simpa [List.filter_cons, isRealTok, ho] using this
    · rw [if_neg ho] at h
      by_cases hc : isCloseTok t
      · rw [if_pos hc] at h
        have := ih _ _ h
        simpa [List.filter_cons, isRealTok, ho, hc] using this
      · rw [if_neg hc] at h
        by_cases hw : pyIsSpace t
        · rw [if_pos hw] at h
          have := ih _ _ h
          simpa [List.filter_cons, isRealTok, ho, hc, hw] using this
        · rw [if_neg hw] at h
          have hreal : isRealTok t = true := by
            simp only [isRealTok, Bool.and_eq_true, Bool.not_eq_true']
            exact ⟨⟨Bool.not_eq_true _ ▸ ho, Bool.not_eq_true _ ▸ hc⟩,
              Bool.not_eq_true _ ▸ hw⟩
          by_cases hh : truthyHref st.href
          · rw [if_pos hh] at h
            cases rest with
            | nil => exact absurd h (by simp)
            | cons next rest2 =>
              simp only [List.head?_cons] at h
              rw [Option.map_eq_some'] at h
              obtain ⟨out, hout, hts⟩ := h
              obtain ⟨hf, hi⟩ := ih _ _ hout
              subst hts
              refine ⟨by simp [List.filter_cons, hreal, hf], ?_⟩
              simp only [List.map_cons, hi, List.filter_cons, hreal]
              simp [List.range'_succ]
          · rw [if_neg hh] at h
            by_cases hin : st.inside
            · rw [if_pos hin] at h
              cases rest with
              | nil => exact absurd h (by simp)
              | cons next rest2 =>
                simp only [List.head?_cons] at h
                rw [Option.map_eq_some'] at h
                obtain ⟨out, hout, hts⟩ := h
                obtain ⟨hf, hi⟩ := ih _ _ hout
                subst hts
                refine ⟨by simp [List.filter_cons, hreal, hf], ?_⟩
                simp only [List.map_cons, hi, List.filter_cons, hreal]
                simp [List.range'_succ]
            · rw [if_neg hin] at h
              rw [Option.map_eq_some'] at h
              obtain ⟨out, hout, hts⟩ := h
              obtain ⟨hf, hi⟩ := ih _ _ hout
              subst hts
              refine ⟨by simp [List.filter_cons, hreal, hf], ?_⟩
              simp only [List.map_cons, hi, List.filter_cons, hreal]
              simp [List.range'_succ]

/-- Claim C2: for every Raw Entry on which the tagger completes, the emitted
Annotated Tokens are exactly the raw tokens that are neither whitespace-only
nor hyperlink sentinels, in order (so whitespace-only tokens are never
emitted), and their sequence ids are exactly 1, 2, ..., in order. -/
theorem c2_emitted_tokens_and_ids (gh : String → String) (e : List String)
    (ts : List AnnTok) (h : tagTokens gh e = some ts) :
    ts.map (fun a => a.form) = e.filter (fun t => isRealTok t) ∧
    ts.map (fun a => a.id) = List.range' 1 (e.filter (fun t => isRealTok t)).length := by
  have := tagLoop_forms_ids gh e ⟨none, false, 0⟩ ts h
  simpa using this

/-- Witness for C2 at a concrete entry with a link, whitespace and plain
tokens. -/
theorem c2_witness :
    List.map (fun a => a.form)
        [AnnTok.mk 1 "running" "O" none, AnnTok.mk 2 "run" "U" (some "/wiki/run")] =
      List.filter (fun t => isRealTok t)
        ["running", " ", "<a href=x>", "run", "</a>"] ∧
    List.map (fun a => a.id)
        [AnnTok.mk 1 "running" "O" none, AnnTok.mk 2 "run" "U" (some "/wiki/run")] =
      List.range' 1 (List.filter (fun t => isRealTok t)
        ["running", " ", "<a href=x>", "run", "</a>"]).length :=
  c2_emitted_tokens_and_ids (fun _ => "/wiki/run")
    ["running", " ", "<a href=x>", "run", "</a>"]
    [AnnTok.mk 1 "running" "O" none, AnnTok.mk 2 "run" "U" (some "/wiki/run")]
    (by decide)

/-! ## Raw-entry structure: outside stretches and link spans -/

/-- A segment of a Raw Entry: either a stretch of tokens outside any link
span, or one hyperlink span given by its opening sentinel token and the
tokens strictly between the sentinels (the bare closing sentinel is
implicit). -/
inductive Seg
  | out (toks : List String)
  | link (opener : String) (toks : List String)

/-- The raw token sequence of one segment. -/
def flatSeg : Seg → List String
  | .out ts => ts
  | .link o ts => o :: ts ++ ["</a>"]

/-- The raw token sequence denoted by a list of segments. -/
def flatten (segs : List Seg) : List String := (segs.map flatSeg).flatten

/-- A token that is not a hyperlink sentinel. -/
def outTok (t : String) : Bool := !isOpenTok t && !isCloseTok t

/-- Expected annotation of the interior of a multi-token link span after its
first token: inside tags, with a last tag on the final token, no target. -/
def innerLink (c : Nat) : List String → List AnnTok
  | [] => []
  | [t] => [⟨c + 1, t, "L", none⟩]
  | t :: rest => ⟨c + 1, t, "I", none⟩ :: innerLink (c + 1) rest

/-- Expected annotation of one link span with target h whose first id is
c+1, per the spec: a single-token span is unit; an N>1 span is begin,
inside repeated N-2 times, last; the target is attached only to the
begin or unit token. -/
def expectedLink (h : String) (c : Nat) : List String → List AnnTok
  | [] => []
  | [t] => [⟨c + 1, t, "U", some h⟩]
  | t :: rest => ⟨c + 1, t, "B", some h⟩ :: innerLink (c + 1) rest

/-- Expected annotation of an outside stretch: real tokens tagged outside,
whitespace-only tokens dropped, no targets. -/
def expOut (c : Nat) : List String → List AnnTok
  | [] => []
  | t :: rest =>
    if pyIsSpace t then expOut c rest else ⟨c + 1, t, "O", none⟩ :: expOut (c + 1) rest

/-- Number of sequence ids consumed by one segment. -/
def segLen : Seg → Nat
  | .out ts => (ts.filter (fun t => !pyIsSpace t)).length
  | .link _ ts => ts.length

/-- Expected annotation of one segment with first id c+1. -/
def expSeg (gh : String → String) (c : Nat) : Seg → List AnnTok
  | .out ts => expOut c ts
  | .link o ts => expectedLink (gh o) c ts

/-- Expected annotation of a segment list, threading the id counter. -/
def expSegs (gh : String → String) (c : Nat) : List Seg → List AnnTok
  | [] => []
  | s :: rest => expSeg gh c s ++ expSegs gh (c + segLen s) rest

/-- Well-formedness of a segment for claim C1: outside stretches carry no
sentinels; a link span has a genuine opening sentinel with a nonempty
target, and a nonempty list of member tokens all of which are real (no
whitespace-only tokens inside the span). -/
def wfSeg1 (gh : String → String) : Seg → Prop
  | .out ts => ∀ t ∈ ts, outTok t = true
  | .link o ts =>
    isOpenTok o = true ∧ gh o ≠ "" ∧ ts ≠ [] ∧ ∀ t ∈ ts, isRealTok t = true

/-- Well-formedness of a segment for claim C9: like wfSeg1 but a link span
may contain whitespace-only member tokens as long as at least one member
token is not whitespace-only. -/
def wfSeg9 (gh : String → String) : Seg → Prop
  | .out ts => ∀ t ∈ ts, outTok t = true
  | .link o ts =>
    isOpenTok o = true ∧ gh o ≠ "" ∧ (∃ t ∈ ts, pyIsSpace t = false) ∧
      ∀ t ∈ ts, outTok t = true

/-- The hypothesis of claim C9 as stated: every opening sentinel is
followed, later in the token sequence, by a closing sentinel. -/
def opensMatched : List String → Bool
  | [] => true
  | t :: rest => (!isOpenTok t || rest.contains "</a>") && opensMatched rest

theorem outTok_open {t : String} (h : outTok t = true) : isOpenTok t = false := by
  simp only [outTok, Bool.and_eq_true, Bool.not_eq_true'] at h
  exact h.1

theorem outTok_close {t : String} (h : outTok t = true) : isCloseTok t = false := by
  simp only [outTok, Bool.and_eq_true, Bool.not_eq_true'] at h
  exact h.2

theorem realTok_open {t : String} (h : isRealTok t = true) : isOpenTok t = false := by
  simp only [isRealTok, Bool.and_eq_true, Bool.not_eq_true'] at h
  exact h.1.1

theorem realTok_close {t : String} (h : isRealTok t = true) : isCloseTok t = false := by
  simp only [isRealTok, Bool.and_eq_true, Bool.not_eq_true'] at h
  exact h.1.2

theorem realTok_space {t : String} (h : isRealTok t = true) : pyIsSpace t = false := by
  simp only [isRealTok, Bool.and_eq_true, Bool.not_eq_true'] at h
  exact h.2

theorem realTok_beq_close {t : String} (h : isRealTok t = true) : (t == "</a>") = false :=
  realTok_close h

theorem isOpenTok_close : isOpenTok "</a>" = false := by decide

theorem isCloseTok_close : isCloseTok "</a>" = true := by decide

theorem tagLoop_open (gh : String → String) {t : String} (rest : List String) (st : TagSt)
    (h : isOpenTok t = true) :
    tagLoop gh (t :: rest) st =
      tagLoop gh rest { st with href := some (gh t), inside := true } := by
  conv_lhs => rw [tagLoop]
  simp only [h, if_true]

theorem tagLoop_closeStep (gh : String → String) {t : String} (rest : List String) (st : TagSt)
    (ho : isOpenTok t = false) (hc : isCloseTok t = true) :
    tagLoop gh (t :: rest) st = tagLoop gh rest { st with inside := false } := by
  conv_lhs => rw [tagLoop]
  simp only [ho, hc, Bool.false_eq_true, if_false, if_true]

theorem tagLoop_space (gh : String → String) {t : String} (rest : List String) (st : TagSt)
    (ho : isOpenTok t = false) (hc : isCloseTok t = false) (hw : pyIsSpace t = true) :
    tagLoop gh (t :: rest) st = tagLoop gh rest st := by
  conv_lhs => rw [tagLoop]
  simp only [ho, hc, hw, Bool.false_eq_true, if_false, if_true]

theorem tagLoop_emit_href (gh : String → String) {t next : String} (rest2 : List String)
    (st : TagSt) (ho : isOpenTok t = false) (hc : isCloseTok t = false)
    (hw : pyIsSpace t = false) (hh : truthyHref st.href = true) :
    tagLoop gh (t :: next :: rest2) st =
      (tagLoop gh (next :: rest2)
          { href := none, inside := st.inside, count := st.count + 1 }).map
        (fun out =>
          ⟨st.count + 1, t, if next == "</a>" then "U" else "B",
            some (st.href.getD "")⟩ :: out) := by
  conv_lhs => rw [tagLoop]
  simp only [ho, hc, hw, hh, Bool.false_eq_true, if_false, if_true, List.head?_cons]

theorem tagLoop_emit_href_nil (gh : String → String) {t : String} (st : TagSt)
    (ho : isOpenTok t = false) (hc : isCloseTok t = false)
    (hw : pyIsSpace t = false) (hh : truthyHref st.href = true) :
    tagLoop gh [t] st = none := by
  conv_lhs => rw [tagLoop]
  simp only [ho, hc, hw, hh, Bool.false_eq_true, if_false, if_true, List.head?_nil]

theorem tagLoop_emit_inside (gh : String → String) {t next : String} (rest2 : List String)
    (st : TagSt) (ho : isOpenTok t = false) (hc : isCloseTok t = false)
    (hw : pyIsSpace t = false) (hh : truthyHref st.href = false) (hin : st.inside = true) :
    tagLoop gh (t :: next :: rest2) st =
      (tagLoop gh (next :: rest2) { st with count := st.count + 1 }).map
        (fun out => ⟨st.count + 1, t, if next == "</a>" then "L" else "I", none⟩ :: out) := by
  conv_lhs => rw [tagLoop]
  simp only [ho, hc, hw, hh, hin, Bool.false_eq_true, if_false, if_true, List.head?_cons]

theorem tagLoop_emit_inside_nil (gh : String → String) {t : String} (st : TagSt)
    (ho : isOpenTok t = false) (hc : isCloseTok t = false)
    (hw : pyIsSpace t = false) (hh : truthyHref st.href = false) (hin : st.inside = true) :
    tagLoop gh [t] st = none := by
  conv_lhs => rw [tagLoop]
  simp only [ho, hc, hw, hh, hin, Bool.false_eq_true, if_false, if_true, List.head?_nil]

theorem tagLoop_emit_out (gh : String → String) {t : String} (rest : List String)
    (st : TagSt) (ho : isOpenTok t = false) (hc : isCloseTok t = false)
    (hw : pyIsSpace t = false) (hh : truthyHref st.href = false) (hin : st.inside = false) :
    tagLoop gh (t :: rest) st =
      (tagLoop gh rest { st with count := st.count + 1 }).map
        (fun out => ⟨st.count + 1, t, "O", none⟩ :: out) := by
  conv_lhs => rw [tagLoop]
  simp only [ho, hc, hw, hh, hin, Bool.false_eq_true, if_false, if_true]

theorem tagLoop_out (gh : String → String) :
    ∀ (ts : List String), (∀ t ∈ ts, outTok t = true) → ∀ (rest : List String) (c : Nat),
      tagLoop gh (ts ++ rest) ⟨none, false, c⟩ =
        (tagLoop gh rest ⟨none, false, c + (ts.filter (fun t => !pyIsSpace t)).length⟩).map
          (fun out => expOut c ts ++ out) := by
  intro ts
  induction ts with
  | nil =>
    intro _ rest c
    simp only [List.nil_append, List.filter_nil, List.length_nil, Nat.add_zero, expOut]
    cases tagLoop gh rest ⟨none, false, c⟩ <;> simp
  | cons t ts ih =>
    intro h rest c
    have ht := h t (by simp)
    have hts : ∀ x ∈ ts, outTok x = true := fun x hx => h x (by simp [hx])
    have ho := outTok_open ht
    have hc := outTok_close ht
    by_cases hw : pyIsSpace t
    · rw [List.cons_append, tagLoop_space gh _ _ ho hc hw, ih hts rest c]
      simp [expOut, hw, List.filter_cons]
    · have hwf : pyIsSpace t = false := by simpa using hw
      rw [List.cons_append, tagLoop_emit_out gh (ts ++ rest) ⟨none, false, c⟩ ho hc hwf rfl rfl]
      rw [ih hts rest (c + 1)]
      simp only [Option.map_map]
      rw [show c + 1 + (List.filter (fun t => !pyIsSpace t) ts).length =
        c + (List.filter (fun t => !pyIsSpace t) (t :: ts)).length by
          simp [List.filter_cons, hwf]; omega]
      congr 1
      funext out
      simp [expOut, hwf]

theorem tagLoop_inner (gh : String → String) :
    ∀ (ts : List String), (∀ t ∈ ts, isRealTok t = true) → ∀ (rest : List String) (c : Nat),
      tagLoop gh (ts ++ "</a>" :: rest) ⟨none, true, c⟩ =
        (tagLoop gh rest ⟨none, false, c + ts.length⟩).map
          (fun out => innerLink c ts ++ out) := by
  intro ts
  induction ts with
  | nil =>
    intro _ rest c
    rw [List.nil_append, tagLoop_closeStep gh rest _ isOpenTok_close isCloseTok_close]
    simp only [innerLink, List.length_nil, Nat.add_zero]
    cases htl : tagLoop gh rest ⟨none, false, c⟩ <;> simp [htl]
  | cons t ts ih =>
    intro h rest c
    have ht := h t (by simp)
    have hts : ∀ x ∈ ts, isRealTok x = true := fun x hx => h x (by simp [hx])
    have ho := realTok_open ht
    have hcl := realTok_close ht
    have hw := realTok_space ht
    cases ts with
    | nil =>
      rw [List.cons_append, List.nil_append,
        tagLoop_emit_inside gh rest ⟨none, true, c⟩ ho hcl hw rfl rfl,
        tagLoop_closeStep gh rest ⟨none, true, c + 1⟩ isOpenTok_close isCloseTok_close]
      simp only [beq_self_eq_true, if_true]
      cases htl : tagLoop gh rest ⟨none, false, c + 1⟩ <;> simp [htl, innerLink]
    | cons t2 ts2 =>
      have ht2c : (t2 == "</a>") = false := realTok_beq_close (hts t2 (by simp))
      rw [List.cons_append, List.cons_append,
        tagLoop_emit_inside gh (ts2 ++ "</a>" :: rest) ⟨none, true, c⟩ ho hcl hw rfl rfl]
      rw [show (t2 :: (ts2 ++ "</a>" :: rest)) = (t2 :: ts2) ++ "</a>" :: rest by simp]
      rw [ih hts rest (c + 1)]
      simp only [Option.map_map, ht2c, Bool.false_eq_true, if_false]
      rw [show c + 1 + (t2 :: ts2).length = c + (t :: t2 :: ts2).length by simp; omega]
      try congr 1
      try funext out
      try simp [innerLink]

theorem tagLoop_link (gh : String → String) (o : String) (ho : isOpenTok o = true)
    (hgh : gh o ≠ "") :
    ∀ (ts : List String), ts ≠ [] → (∀ t ∈ ts, isRealTok t = true) →
    ∀ (rest : List String) (c : Nat),
      tagLoop gh (o :: ts ++ "</a>" :: rest) ⟨none, false, c⟩ =
        (tagLoop gh rest ⟨none, false, c + ts.length⟩).map
          (fun out => expectedLink (gh o) c ts ++ out) := by
  intro ts hne h rest c
  have hie : (gh o).isEmpty = false := by
    cases hie2 : (gh o).isEmpty
    · rfl
    · exact absurd ((String.isEmpty_iff _).mp hie2) hgh
  have htr : truthyHref (some (gh o)) = true := by
    simp [truthyHref, hie]
  cases ts with
  | nil => exact absurd rfl hne
  | cons t ts2 =>
    have ht := h t (by simp)
    have hto := realTok_open ht
    have htc := realTok_close ht
    have htw := realTok_space ht
    have hts2 : ∀ x ∈ ts2, isRealTok x = true := fun x hx => h x (by simp [hx])
    rw [show o :: (t :: ts2) ++ "</a>" :: rest = o :: (t :: (ts2 ++ "</a>" :: rest)) by simp]
    rw [tagLoop_open gh (t :: (ts2 ++ "</a>" :: rest)) ⟨none, false, c⟩ ho]
    cases ts2 with
    | nil =>
      rw [List.nil_append,
        tagLoop_emit_href gh rest ⟨some (gh o), true, c⟩ hto htc htw htr,
        tagLoop_closeStep gh rest ⟨none, true, c + 1⟩ isOpenTok_close isCloseTok_close]
      simp only [beq_self_eq_true, if_true, Option.getD_some]
      cases htl : tagLoop gh rest ⟨none, false, c + 1⟩ <;> simp [htl, expectedLink]
    | cons t2 ts3 =>
      have ht2c : (t2 == "</a>") = false := realTok_beq_close (hts2 t2 (by simp))
      rw [List.cons_append,
        tagLoop_emit_href gh (ts3 ++ "</a>" :: rest) ⟨some (gh o), true, c⟩ hto htc htw htr]
      rw [show (t2 :: (ts3 ++ "</a>" :: rest)) = (t2 :: ts3) ++ "</a>" :: rest by simp]
      rw [tagLoop_inner gh (t2 :: ts3) (fun x hx => hts2 x hx) rest (c + 1)]
      simp only [Option.map_map, ht2c, Bool.false_eq_true, if_false, Option.getD_some]
      rw [show c + 1 + (t2 :: ts3).length = c + (t :: t2 :: ts3).length by simp; omega]
      try congr 1
      try funext out
      try simp [expectedLink]

theorem tagLoop_segs (gh : String → String) :
    ∀ (segs : List Seg), (∀ s ∈ segs, wfSeg1 gh s) → ∀ (c : Nat),
      tagLoop gh (flatten segs) ⟨none, false, c⟩ = some (expSegs gh c segs) := by
  intro segs
  induction segs with
  | nil => intro _ c; simp [flatten, tagLoop, expSegs]
  | cons s rest ih =>
    intro h c
    have hs := h s (by simp)
    have hrest : ∀ x ∈ rest, wfSeg1 gh x := fun x hx => h x (by simp [hx])
    cases s with
    | out ts =>
      rw [show flatten (Seg.out ts :: rest) = ts ++ flatten rest by simp [flatten, flatSeg]]
      rw [tagLoop_out gh ts hs (flatten rest) c, ih hrest _]
      simp [expSegs, expSeg, segLen]
    | link o ts =>
      obtain ⟨ho, hgh, hne, hreal⟩ := hs
      rw [show flatten (Seg.link o ts :: rest) = o :: ts ++ "</a>" :: flatten rest by
        simp [flatten, flatSeg]]
      rw [tagLoop_link gh o ho hgh ts hne hreal (flatten rest) c, ih hrest _]
      simp [expSegs, expSeg, segLen]

/-- Claim C1 (amended): for a Raw Entry made of outside stretches and link
spans in which no whitespace-only token occurs strictly inside a span, the
tagger emits exactly the spec tagging: a span of one real token is unit, a
span of N>1 real tokens is begin, inside repeated N-2 times, last, and the
link target is attached only to the begin or unit token, once per span
(the expSegs / expectedLink functions state that scheme).  The original
claim, quantified over spans that may contain interior whitespace-only
tokens, is refuted by c1_counterexample: the lookahead inspects the raw
next token, so whitespace before the closing sentinel turns unit into
begin. -/
theorem c1_link_span_tagging (gh : String → String) (segs : List Seg)
    (h : ∀ s ∈ segs, wfSeg1 gh s) :
    tagTokens gh (flatten segs) = some (expSegs gh 0 segs) :=
  tagLoop_segs gh segs h 0

/-- Counterexample to claim C1 as stated: the link span contains exactly one
real token, run, yet it is tagged B rather than U, because a
whitespace-only token stands between it and the closing sentinel. -/
theorem c1_counterexample :
    tagTokens (fun _ => "/wiki/run") ["<a href=x>", "run", " ", "</a>"] =
      some [⟨1, "run", "B", some "/wiki/run"⟩] ∧
    ("B" : String) ≠ "U" := by
  decide

/-- Witness for C1 at a concrete entry with an outside stretch, a one-token
span and a three-token span. -/
theorem c1_witness :
    tagTokens (fun _ => "/wiki/nyc")
        (flatten [Seg.out ["running", " "], Seg.link "<a href=x>" ["New", "York", "City"],
          Seg.link "<a href=y>" ["run"]]) =
      some (expSegs (fun _ => "/wiki/nyc") 0
        [Seg.out ["running", " "], Seg.link "<a href=x>" ["New", "York", "City"],
          Seg.link "<a href=y>" ["run"]]) :=
  c1_link_span_tagging (fun _ => "/wiki/nyc")
    [Seg.out ["running", " "], Seg.link "<a href=x>" ["New", "York", "City"],
      Seg.link "<a href=y>" ["run"]]
    (by
      intro s hs
      simp only [List.mem_cons, List.not_mem_nil, or_false] at hs
      rcases hs with rfl | rfl | rfl
      · simp only [wfSeg1]; decide
      · simp only [wfSeg1]; refine ⟨by decide, by decide, by decide, by decide⟩
      · simp only [wfSeg1]; refine ⟨by decide, by decide, by decide, by decide⟩)

theorem tagLoop_in9 (gh : String → String) :
    ∀ (ts : List String), (∀ t ∈ ts, outTok t = true) → ∀ (rest : List String) (c : Nat),
      ∃ (c2 : Nat) (pre : List AnnTok),
        tagLoop gh (ts ++ "</a>" :: rest) ⟨none, true, c⟩ =
          (tagLoop gh rest ⟨none, false, c2⟩).map (fun out => pre ++ out) := by
  intro ts
  induction ts with
  | nil =>
    intro _ rest c
    refine ⟨c, [], ?_⟩
    rw [List.nil_append,
      tagLoop_closeStep gh rest ⟨none, true, c⟩ isOpenTok_close isCloseTok_close]
    cases htl : tagLoop gh rest ⟨none, false, c⟩ <;> simp [htl]
  | cons t ts ih =>
    intro h rest c
    have ht := h t (by simp)
    have hts : ∀ x ∈ ts, outTok x = true := fun x hx => h x (by simp [hx])
    have ho := outTok_open ht
    have hc := outTok_close ht
    by_cases hw : pyIsSpace t
    · rw [List.cons_append, tagLoop_space gh _ ⟨none, true, c⟩ ho hc hw]
      exact ih hts rest c
    · have hwf : pyIsSpace t = false := by simpa using hw
      cases ts with
      | nil =>
        rw [List.cons_append, List.nil_append,
          tagLoop_emit_inside gh rest ⟨none, true, c⟩ ho hc hwf rfl rfl,
          tagLoop_closeStep gh rest ⟨none, true, c + 1⟩ isOpenTok_close isCloseTok_close]
        simp only [beq_self_eq_true, if_true]
        refine ⟨c + 1, [⟨c + 1, t, "L", none⟩], ?_⟩
        cases htl : tagLoop gh rest ⟨none, false, c + 1⟩ <;> simp [htl]
      | cons t2 ts2 =>
        rw [List.cons_append, List.cons_append,
          tagLoop_emit_inside gh (ts2 ++ "</a>" :: rest) ⟨none, true, c⟩ ho hc hwf rfl rfl]
        obtain ⟨c2, pre, hpre⟩ := ih hts rest (c + 1)
        rw [show (t2 :: (ts2 ++ "</a>" :: rest)) = (t2 :: ts2) ++ "</a>" :: rest by simp,
          hpre]
        refine ⟨c2, ⟨c + 1, t, if t2 == "</a>" then "L" else "I", none⟩ :: pre, ?_⟩
        cases htl : tagLoop gh rest ⟨none, false, c2⟩ <;> simp [htl]

theorem tagLoop_pend9 (gh : String → String) :
    ∀ (ts : List String), (∀ t ∈ ts, outTok t = true) →
      (∃ t ∈ ts, pyIsSpace t = false) → ∀ (rest : List String) (c : Nat) (hs : String),
      hs ≠ "" →
      ∃ (c2 : Nat) (pre : List AnnTok),
        tagLoop gh (ts ++ "</a>" :: rest) ⟨some hs, true, c⟩ =
          (tagLoop gh rest ⟨none, false, c2⟩).map (fun out => pre ++ out) := by
  intro ts
  induction ts with
  | nil =>
    intro _ hex rest c hs hns
    exact absurd hex (by simp)
  | cons t ts ih =>
    intro h hex rest c hs hns
    have ht := h t (by simp)
    have hts : ∀ x ∈ ts, outTok x = true := fun x hx => h x (by simp [hx])
    have ho := outTok_open ht
    have hc := outTok_close ht
    have hie : hs.isEmpty = false := by
      cases hie2 : hs.isEmpty
      · rfl
      · exact absurd ((String.isEmpty_iff _).mp hie2) hns
    have htr : truthyHref (some hs) = true := by simp [truthyHref, hie]
    by_cases hw : pyIsSpace t
    · rw [List.cons_append, tagLoop_space gh _ ⟨some hs, true, c⟩ ho hc hw]
      refine ih hts ?_ rest c hs hns
      obtain ⟨x, hx, hxw⟩ := hex
      rcases List.mem_cons.mp hx with rfl | hx2
      · rw [hw] at hxw; cases hxw
      · exact ⟨x, hx2, hxw⟩
    · have hwf : pyIsSpace t = false := by simpa using hw
      cases ts with
      | nil =>
        rw [List.cons_append, List.nil_append,
          tagLoop_emit_href gh rest ⟨some hs, true, c⟩ ho hc hwf htr,
          tagLoop_closeStep gh rest ⟨none, true, c + 1⟩ isOpenTok_close isCloseTok_close]
        simp only [beq_self_eq_true, if_true, Option.getD_some]
        refine ⟨c + 1, [⟨c + 1, t, "U", some hs⟩], ?_⟩
        cases htl : tagLoop gh rest ⟨none, false, c + 1⟩ <;> simp [htl]
      | cons t2 ts2 =>
        rw [List.cons_append, List.cons_append,
          tagLoop_emit_href gh (ts2 ++ "</a>" :: rest) ⟨some hs, true, c⟩ ho hc hwf htr]
        obtain ⟨c2, pre, hpre⟩ := tagLoop_in9 gh (t2 :: ts2) hts rest (c + 1)
        rw [show (t2 :: (ts2 ++ "</a>" :: rest)) = (t2 :: ts2) ++ "</a>" :: rest by simp,
          hpre]
        simp only [Option.getD_some]
        refine ⟨c2, ⟨c + 1, t, if t2 == "</a>" then "U" else "B", some hs⟩ :: pre, ?_⟩
        cases htl : tagLoop gh rest ⟨none, false, c2⟩ <;> simp [htl]

theorem tagLoop_segs9 (gh : String → String) :
    ∀ (segs : List Seg), (∀ s ∈ segs, wfSeg9 gh s) → ∀ (c : Nat),
      (tagLoop gh (flatten segs) ⟨none, false, c⟩).isSome = true := by
  intro segs
  induction segs with
  | nil => intro _ c; simp [flatten, tagLoop]
  | cons s rest ih =>
    intro h c
    have hs := h s (by simp)
    have hrest : ∀ x ∈ rest, wfSeg9 gh x := fun x hx => h x (by simp [hx])
    cases s with
    | out ts =>
      rw [show flatten (Seg.out ts :: rest) = ts ++ flatten rest by simp [flatten, flatSeg]]
      rw [tagLoop_out gh ts hs (flatten rest) c]
      have hrec := ih hrest (c + (ts.filter (fun t => !pyIsSpace t)).length)
      cases htl : tagLoop gh (flatten rest)
          ⟨none, false, c + (ts.filter (fun t => !pyIsSpace t)).length⟩ with
      | none => rw [htl] at hrec; simp at hrec
      | some v => simp [htl]
    | link o ts =>
      obtain ⟨ho, hgh, hex, hall⟩ := hs
      rw [show flatten (Seg.link o ts :: rest) = o :: (ts ++ "</a>" :: flatten rest) by
        simp [flatten, flatSeg]]
      rw [tagLoop_open gh (ts ++ "</a>" :: flatten rest) ⟨none, false, c⟩ ho]
      obtain ⟨c2, pre, hpre⟩ := tagLoop_pend9 gh ts hall hex (flatten rest) c (gh o) hgh
      rw [hpre]
      have hrec := ih hrest c2
      cases htl : tagLoop gh (flatten rest) ⟨none, false, c2⟩ with
      | none => rw [htl] at hrec; simp at hrec
      | some v => simp [htl]

/-- Claim C9 (amended): (1) for a Raw Entry made of outside stretches and
link spans in which every opening sentinel has a matching closing sentinel
and every link span contains at least one non-whitespace token, the
one-token lookahead always stays in bounds, so the tagger completes; (2) a
real token processed as the last remaining token while a link target is
pending or the inside-link flag is set makes the lookahead index go past
the end of the sequence (the tagger fails).  The original claim, which
asserted (1) for every entry whose sentinels are merely matched and (2)
for every entry whose final non-whitespace token lies in an unclosed span,
is refuted by c9_counterexample. -/
theorem c9_lookahead_bounds (gh : String → String) :
    (∀ (segs : List Seg), (∀ s ∈ segs, wfSeg9 gh s) →
      (tagTokens gh (flatten segs)).isSome = true) ∧
    (∀ (st : TagSt) (t : String), isRealTok t = true →
      (truthyHref st.href || st.inside) = true → tagLoop gh [t] st = none) := by
  constructor
  · intro segs h
    exact tagLoop_segs9 gh segs h 0
  · intro st t ht hflag
    have ho := realTok_open ht
    have hc := realTok_close ht
    have hw := realTok_space ht
    by_cases hh : truthyHref st.href
    · exact tagLoop_emit_href_nil gh st ho hc hw hh
    · have hhf : truthyHref st.href = false := by simpa using hh
      have hin : st.inside = true := by simpa [hhf] using hflag
      exact tagLoop_emit_inside_nil gh st ho hc hw hhf hin

/-- Counterexample to claim C9 as stated: in the first entry every opening
sentinel is followed by a matching closing sentinel, yet the tagger hits an
out-of-bounds lookahead (the empty span leaves the link target pending, so
the final token still reads entry[token_index + 1]); in the second entry
the final non-whitespace token run lies inside an unclosed link span, yet
the lookahead stays in bounds because a trailing whitespace token follows
it. -/
theorem c9_counterexample :
    opensMatched ["<a href=x>", "</a>", "run"] = true ∧
    tagTokens (fun _ => "u") ["<a href=x>", "</a>", "run"] = none ∧
    tagTokens (fun _ => "u") ["<a href=x>", "run", " "] =
      some [⟨1, "run", "B", some "u"⟩] := by
  decide

/-- Witness for C9: a span with interior whitespace but one real token is
tagged without an out-of-bounds access, and a real token processed last
with a pending target fails. -/
theorem c9_witness :
    (tagTokens (fun _ => "u") (flatten [Seg.link "<a href=x>" [" ", "run"]])).isSome = true ∧
    tagLoop (fun _ => "u") ["run"] ⟨some "u", true, 0⟩ = none := by
  constructor
  · exact (c9_lookahead_bounds (fun _ => "u")).1 [Seg.link "<a href=x>" [" ", "run"]]
      (by
        intro s hs
        simp only [List.mem_cons, List.not_mem_nil, or_false] at hs
        subst hs
        simp only [wfSeg9]
        exact ⟨by decide, by decide, ⟨"run", by decide, by decide⟩, by decide⟩)
  · exact (c9_lookahead_bounds (fun _ => "u")).2 ⟨some "u", true, 0⟩ "run"
      (by decide) (by decide)

/-! ## Entry extractor (find_entries, core.py lines 121-220) -/

/-- One node of the depth-first pre-order traversal of the normalized page
(soup.find_all()): its tag name, its text, an identifier standing for its
parent node (the source compares li.parent references), and, for list
items, the Raw Entry token list obtained from the node's inner content by
the excise / attribute-stripping / tokenize pipeline (core.py lines
186-206), which calls the external tokenizer and is therefore carried here
as data. -/
structure DNode where
  name : String
  text : String
  parent : Nat
  tokens : List String
deriving DecidableEq

/-- int(tag_type[-1]) on the header tag names the traversal inspects. -/
def tagLevel : String → Option Nat
  | "h1" => some 1
  | "h2" => some 2
  | "h3" => some 3
  | "h4" => some 4
  | "h5" => some 5
  | "h6" => some 6
  | _ => none

/-- is_pos_header (core.py lines 108-109): an h3 or h4 whose text is in the
fixed set of recognized part-of-speech labels (VALID_POS, supplied as the
parameter validPos since const.py only declares the fixed list). -/
def is_pos_header (validPos : List String) (n : DNode) : Bool :=
  (n.name == "h3" || n.name == "h4") && validPos.contains n.text

/-- is_language_header (core.py lines 104-105): an h2 or h3 whose text is
not in the fixed set of excluded section titles (NON_DEFINITION_HEADINGS,
supplied as nonDef) and which is not itself a part-of-speech header. -/
def is_language_header (validPos nonDef : List String) (n : DNode) : Bool :=
  (n.name == "h2" || n.name == "h3") && !nonDef.contains n.text &&
    !is_pos_header validPos n

/-- The traversal state of find_entries: the entries mapping (association
list in defaultdict insertion order), the append-only header history, and
the reading_entries / pos_header_level / language_name / li_container
variables (core.py lines 136-149). -/
structure FEState where
  entries : List (String × List (List String))
  headers : List (Nat × String)
  reading_entries : Bool
  pos_header_level : Option Nat
  language_name : Option String
  li_container : Option Nat
deriving DecidableEq

/-- entries[language_name].append(tokens) on the association list: append
to the existing key, or add the key at the end (defaultdict(list)). -/
def addEntry (es : List (String × List (List String))) (key : String)
    (entry : List String) : List (String × List (List String)) :=
  match es with
  | [] => [(key, [entry])]
  | (k, v) :: rest =>
    if k = key then (k, v ++ [entry]) :: rest else (k, v) :: addEntry rest key entry

/-- The state before the traversal starts. -/
def initFEState : FEState := ⟨[], [], false, none, none, none⟩

/-- The header history after the unconditional append performed for every
h2/h3/h4 node (core.py lines 156-157). -/
def headersAfter (st : FEState) (n : DNode) : List (Nat × String) :=
  if n.name == "h2" || n.name == "h3" || n.name == "h4" then
    st.headers ++ [((tagLevel n.name).getD 0, n.text)]
  else st.headers

/-- The message of the FormatException raised for an orphan entry
(core.py lines 168-170). -/
def orphanMsg : String :=
  "Found a definition entry that does not appear to be nested under a language header"

/-- One iteration of the find_entries traversal loop (core.py lines
152-218) on one node: the unconditional header append, then the
part-of-speech branch (which raises when no header of level one less is in
the history), the list-item branch with the container bookkeeping and the
silent drop of a differently-parented item, and the reading-ending branch
for a header whose level equals the active part-of-speech level. -/
def find_entries_step (validPos : List String) (st : FEState) (n : DNode) :
    Except String FEState :=
  if is_pos_header validPos n then
    match (((headersAfter st n).filter
        (fun p => p.1 == (tagLevel n.name).getD 0 - 1)).map (fun p => p.2)).getLast? with
    | none => .error orphanMsg
    | some t =>
      .ok { st with headers := headersAfter st n, reading_entries := true,
                    pos_header_level := some ((tagLevel n.name).getD 0),
                    language_name := some t }
  else if st.reading_entries && n.name == "li" then
    match st.li_container with
    | none =>
      .ok { st with headers := headersAfter st n, li_container := some n.parent,
                    entries := addEntry st.entries (st.language_name.getD "") n.tokens }
    | some cont =>
      if cont != n.parent then
        .ok { st with headers := headersAfter st n, li_container := none,
                      reading_entries := false, pos_header_level := none }
      else
        .ok { st with headers := headersAfter st n,
                      entries := addEntry st.entries (st.language_name.getD "") n.tokens }
  else if st.reading_entries &&
      (match st.pos_header_level with
       | some pl =>
         (match tagLevel n.name with
          | some l => decide (1 ≤ l) && decide (l ≤ pl) && (l == pl)
          | none => false)
       | none => false) then
    .ok { st with headers := headersAfter st n, li_container := none,
                  reading_entries := false, pos_header_level := none }
  else
    .ok { st with headers := headersAfter st n }

/-- The find_entries traversal over the pre-order node list. -/
def find_entries_run (validPos : List String) (nodes : List DNode) :
    Except String FEState :=
  nodes.foldlM (find_entries_step validPos) initFEState

/-- find_entries: the per-language entries mapping, or the propagated
FormatException. -/
def find_entries (validPos : List String) (nodes : List DNode) :
    Except String (List (String × List (List String))) :=
  (find_entries_run validPos nodes).map (fun st => st.entries)

theorem foldlM_except_append {α σ : Type} (f : σ → α → Except String σ)
    (l1 l2 : List α) (init s : σ) (h : List.foldlM f init l1 = .ok s) :
    List.foldlM f init (l1 ++ l2) = List.foldlM f s l2 := by
  induction l1 generalizing init with
  | nil =>
    simp only [List.foldlM_nil] at h
    cases h
    simp
  | cons a l ih =>
    rw [List.foldlM_cons] at h
    rw [List.cons_append, List.foldlM_cons]
    cases hfa : f init a with
    | error e =>
      rw [hfa] at h
      have h2 : (Except.error e : Except String σ) = Except.ok s := h
      cases h2
    | ok s1 =>
      rw [hfa] at h
      have h2 : List.foldlM f s1 l = Except.ok s := h
      have h3 := ih s1 h2
      exact h3

theorem tagLevel_ge_one_ne_li {s : String} {l : Nat} (h : tagLevel s = some l) :
    1 ≤ l ∧ (s == "li") = false := by
  unfold tagLevel at h
  split at h <;> simp_all <;> omega

theorem li_foreign_step (validPos : List String) (st : FEState) (n : DNode)
    (cont : Nat) (hr : st.reading_entries = true) (hn : n.name = "li")
    (hcont : st.li_container = some cont) (hne : cont ≠ n.parent) :
    find_entries_step validPos st n =
      .ok { st with li_container := none, reading_entries := false,
                    pos_header_level := none } := by
  have hpos : is_pos_header validPos n = false := by simp [is_pos_header, hn]
  have hha : headersAfter st n = st.headers := by simp [headersAfter, hn]
  simp [find_entries_step, hpos, hha, hr, hn, hcont, hne]

/-- Claim C4: while in reading mode, a list item whose parent differs from
the recorded entries container ends the current group: the mode returns to
searching, the container and active level are cleared, and the item itself
is dropped — the entries mapping is unchanged and the container is not
re-seeded from this item. -/
theorem c4_foreign_li_ends_group (validPos : List String) (st : FEState) (n : DNode)
    (cont : Nat) (hr : st.reading_entries = true) (hn : n.name = "li")
    (hcont : st.li_container = some cont) (hne : cont ≠ n.parent) :
    find_entries_step validPos st n =
      .ok { st with li_container := none, reading_entries := false,
                    pos_header_level := none } :=
  li_foreign_step validPos st n cont hr hn hcont hne

/-- Witness for C4 at a concrete state and list item. -/
theorem c4_witness :
    find_entries_step ["Noun"]
        ⟨[("English", [["x"]])], [(2, "English"), (3, "Noun")], true, some 3,
          some "English", some 5⟩
        ⟨"li", "y", 7, ["y"]⟩ =
      .ok ⟨[("English", [["x"]])], [(2, "English"), (3, "Noun")], false, none,
          some "English", none⟩ :=
  c4_foreign_li_ends_group ["Noun"]
    ⟨[("English", [["x"]])], [(2, "English"), (3, "Noun")], true, some 3,
      some "English", some 5⟩
    ⟨"li", "y", 7, ["y"]⟩ 5 rfl rfl rfl (by decide)

/-- Counterexample to claim C5 as stated: with the active nesting level 3,
an h2 header (level 2, not a part-of-speech header, so of level less than
or equal to the active level) does NOT end the part-of-speech section: the
source only exits on a header whose level exactly equals the active level,
so after the h2 the state still has reading_entries true and the active
level still set. -/
theorem c5_counterexample :
    find_entries_run ["Noun"]
        [⟨"h2", "English", 0, []⟩, ⟨"h3", "Noun", 0, []⟩, ⟨"h2", "Etymology", 0, []⟩] =
      .ok ⟨[], [(2, "English"), (3, "Noun"), (2, "Etymology")], true, some 3,
        some "English", none⟩ := by
  rfl

/-- Claim C5 (amended): while in reading mode, a header node that is not a
part-of-speech header and whose level EXACTLY equals the active nesting
level ends the current part-of-speech section: the mode returns to
searching and the container and active level are cleared (the header is
still appended to the history).  A non-part-of-speech header of strictly
lower level leaves the reading state untouched (c5_counterexample). -/
theorem c5_same_level_header_ends (validPos : List String) (st : FEState) (n : DNode)
    (pl : Nat) (hr : st.reading_entries = true) (hpl : st.pos_header_level = some pl)
    (hlvl : tagLevel n.name = some pl) (hpos : is_pos_header validPos n = false) :
    find_entries_step validPos st n =
      .ok { st with headers := headersAfter st n, li_container := none,
                    reading_entries := false, pos_header_level := none } := by
  obtain ⟨h1pl, hli⟩ := tagLevel_ge_one_ne_li hlvl
  simp [find_entries_step, hpos, hr, hli, hpl, hlvl, h1pl]

/-- Witness for C5 at a concrete reading state and same-level header. -/
theorem c5_witness :
    find_entries_step ["Noun"]
        ⟨[("English", [["x"]])], [(2, "English"), (3, "Noun")], true, some 3,
          some "English", some 4⟩
        ⟨"h3", "Pronunciation", 0, []⟩ =
      .ok ⟨[("English", [["x"]])],
          [(2, "English"), (3, "Noun"), (3, "Pronunciation")], false, none,
          some "English", none⟩ :=
  c5_same_level_header_ends ["Noun"]
    ⟨[("English", [["x"]])], [(2, "English"), (3, "Noun")], true, some 3,
      some "English", some 4⟩
    ⟨"h3", "Pronunciation", 0, []⟩ 3 rfl rfl rfl (by decide)

/-- Claim C3 (amended): a part-of-speech header whose header history (after
the unconditional append) contains no header of level one less makes
extraction fail with the orphan-entry FormatException, whose message is the
fixed string orphanMsg — it does not carry the offending header text — and
no entries mapping is produced for the document (the whole find_entries
call returns the error). -/
theorem c3_orphan_header_fails (validPos : List String) (pre suf : List DNode)
    (n : DNode) (st : FEState)
    (hpre : List.foldlM (find_entries_step validPos) initFEState pre = .ok st)
    (hpos : is_pos_header validPos n = true)
    (hnopar : (headersAfter st n).filter
        (fun p => p.1 == (tagLevel n.name).getD 0 - 1) = []) :
    find_entries validPos (pre ++ n :: suf) = .error orphanMsg := by
  have hstep : find_entries_step validPos st n = .error orphanMsg := by
    simp [find_entries_step, hpos, hnopar]
  have h2 : List.foldlM (find_entries_step validPos) initFEState (pre ++ n :: suf) =
      Except.error orphanMsg := by
    rw [foldlM_except_append _ pre (n :: suf) _ st hpre, List.foldlM_cons, hstep]
    rfl
  unfold find_entries find_entries_run
  rw [h2]
  rfl

set_option maxRecDepth 4000 in
/-- Counterexample to claim C3 as stated: two documents whose orphan
part-of-speech headers have different texts (Noun and Verb) fail with the
very same error value, and that fixed message contains neither header
text as a substring, so the error does not carry the offending header
text. -/
theorem c3_counterexample :
    find_entries ["Noun", "Verb"] [⟨"h3", "Noun", 0, []⟩] = .error orphanMsg ∧
    find_entries ["Noun", "Verb"] [⟨"h3", "Verb", 0, []⟩] = .error orphanMsg ∧
    ¬ List.IsInfix "Noun".toList orphanMsg.toList ∧
    ¬ List.IsInfix "Verb".toList orphanMsg.toList := by
  refine ⟨rfl, rfl, by decide, by decide⟩

/-- Witness for C3: an h4 part-of-speech header with no h3 in the history
aborts the document even though later nodes carry entries. -/
theorem c3_witness :
    find_entries ["Noun"] ([] ++ ⟨"h4", "Noun", 0, []⟩ :: [⟨"li", "w", 1, ["w"]⟩]) =
      .error orphanMsg :=
  c3_orphan_header_fails ["Noun"] [] [⟨"li", "w", 1, ["w"]⟩] ⟨"h4", "Noun", 0, []⟩
    initFEState rfl (by decide) (by decide)

/-- Claim C10: a part-of-speech header encountered while already in reading
mode leaves the recorded entries container unchanged (only the mode, the
active level and the language name are updated, besides the header
append); consequently a following list item whose parent differs from the
stale container terminates reading and is dropped — the entries mapping is
unchanged and no new group is started from it. -/
theorem c10_pos_header_keeps_container (validPos : List String) (st : FEState)
    (n m : DNode) (t : String) (cont : Nat)
    (hpos : is_pos_header validPos n = true)
    (hpar : (((headersAfter st n).filter
        (fun p => p.1 == (tagLevel n.name).getD 0 - 1)).map (fun p => p.2)).getLast? =
      some t)
    (hcont : st.li_container = some cont)
    (hm : m.name = "li") (hmp : cont ≠ m.parent) :
    ∃ st2, find_entries_step validPos st n = .ok st2 ∧
      st2.li_container = st.li_container ∧ st2.entries = st.entries ∧
      find_entries_step validPos st2 m =
        .ok { st2 with
          li_container := none, reading_entries := false, pos_header_level := none } := by
  refine ⟨{ st with
      headers := headersAfter st n,
      reading_entries := true,
      pos_header_level := some ((tagLevel n.name).getD 0),
      language_name := some t }, ?_, rfl, rfl, ?_⟩
  · simp [find_entries_step, hpos, hpar]
  · exact li_foreign_step validPos _ m cont rfl hm hcont hmp

/-- Witness for C10: an h3 Verb header seen while reading leaves the stale
container in place and the next differently-parented list item is dropped. -/
theorem c10_witness :
    ∃ st2, find_entries_step ["Noun", "Verb"]
        ⟨[("English", [["x"]])], [(2, "English"), (3, "Noun")], true, some 3,
          some "English", some 5⟩
        ⟨"h3", "Verb", 0, []⟩ = .ok st2 ∧
      st2.li_container = (⟨[("English", [["x"]])], [(2, "English"), (3, "Noun")], true,
          some 3, some "English", some 5⟩ : FEState).li_container ∧
      st2.entries = (⟨[("English", [["x"]])], [(2, "English"), (3, "Noun")], true,
          some 3, some "English", some 5⟩ : FEState).entries ∧
      find_entries_step ["Noun", "Verb"] st2 ⟨"li", "y", 9, ["y"]⟩ =
        .ok { st2 with
          li_container := none, reading_entries := false, pos_header_level := none } :=
  c10_pos_header_keeps_container ["Noun", "Verb"]
    ⟨[("English", [["x"]])], [(2, "English"), (3, "Noun")], true, some 3,
      some "English", some 5⟩
    ⟨"h3", "Verb", 0, []⟩ ⟨"li", "y", 9, ["y"]⟩ "English" 5
    (by decide) (by decide) rfl rfl (by decide)

theorem getLast?_mem_of_eq_some {α : Type} {l : List α} {a : α}
    (h : l.getLast? = some a) : a ∈ l := by
  induction l with
  | nil => cases h
  | cons x xs ih =>
    cases xs with
    | nil =>
      simp only [List.getLast?_singleton, Option.some.injEq] at h
      simp [h]
    | cons y ys =>
      rw [List.getLast?_cons_cons] at h
      exact List.mem_cons_of_mem _ (ih h)

theorem addEntry_keys {es : List (String × List (List String))} {key : String}
    {e : List String} {k : String}
    (h : k ∈ (addEntry es key e).map Prod.fst) :
    k ∈ es.map Prod.fst ∨ k = key := by
  induction es with
  | nil =>
    simp only [addEntry, List.map_cons, List.map_nil, List.mem_cons, List.not_mem_nil,
      or_false] at h
    exact Or.inr h
  | cons p rest ih =>
    obtain ⟨pk, pv⟩ := p
    by_cases hk : pk = key
    · rw [show addEntry ((pk, pv) :: rest) key e = (pk, pv ++ [e]) :: rest by
        simp [addEntry, hk]] at h
      simp only [List.map_cons, List.mem_cons] at h
      rcases h with h1 | h2
      · exact Or.inl (by rw [List.map_cons]; exact List.mem_cons.mpr (Or.inl h1))
      · exact Or.inl (by rw [List.map_cons]; exact List.mem_cons.mpr (Or.inr h2))
    · rw [show addEntry ((pk, pv) :: rest) key e = (pk, pv) :: addEntry rest key e by
        simp [addEntry, hk]] at h
      simp only [List.map_cons, List.mem_cons] at h
      rcases h with h1 | h2
      · exact Or.inl (by rw [List.map_cons]; exact List.mem_cons.mpr (Or.inl h1))
      · rcases ih h2 with h3 | h4
        · exact Or.inl (by rw [List.map_cons]; exact List.mem_cons.mpr (Or.inr h3))
        · exact Or.inr h4

theorem is_pos_header_level {validPos : List String} {n : DNode}
    (h : is_pos_header validPos n = true) :
    (n.name = "h3" ∧ tagLevel n.name = some 3) ∨
      (n.name = "h4" ∧ tagLevel n.name = some 4) := by
  simp only [is_pos_header, Bool.and_eq_true, Bool.or_eq_true, beq_iff_eq] at h
  rcases h.1 with h3 | h4
  · exact Or.inl ⟨h3, by rw [h3]; rfl⟩
  · exact Or.inr ⟨h4, by rw [h4]; rfl⟩

theorem headersAfter_mem {st : FEState} {n : DNode} {l : Nat} {k : String}
    (h : (l, k) ∈ headersAfter st n) :
    (l, k) ∈ st.headers ∨
      (((n.name = "h2" ∧ l = 2) ∨ (n.name = "h3" ∧ l = 3) ∨ (n.name = "h4" ∧ l = 4)) ∧
        k = n.text) := by
  unfold headersAfter at h
  split at h
  case isTrue hcond =>
    rcases List.mem_append.mp h with h1 | h2
    · exact Or.inl h1
    · simp only [List.mem_singleton, Prod.mk.injEq] at h2
      obtain ⟨hl, hk⟩ := h2
      simp only [Bool.or_eq_true, beq_iff_eq] at hcond
      rcases hcond with (h2n | h3n) | h4n
      · refine Or.inr ⟨Or.inl ⟨h2n, ?_⟩, hk⟩
        rw [h2n] at hl
        exact hl.trans rfl
      · refine Or.inr ⟨Or.inr (Or.inl ⟨h3n, ?_⟩), hk⟩
        rw [h3n] at hl
        exact hl.trans rfl
      · refine Or.inr ⟨Or.inr (Or.inr ⟨h4n, ?_⟩), hk⟩
        rw [h4n] at hl
        exact hl.trans rfl
  case isFalse => exact Or.inl h

/-- The invariant that reading mode always has a language name recorded. -/
def Linv (st : FEState) : Prop := st.reading_entries = true → ∃ t, st.language_name = some t

theorem step_transfer (validPos : List String) (st st2 : FEState) (n : DNode)
    (h : find_entries_step validPos st n = .ok st2) (hL : Linv st) :
    Linv st2 ∧
    (∀ k, k ∈ st2.entries.map Prod.fst →
      k ∈ st.entries.map Prod.fst ∨ st.language_name = some k) ∧
    (∀ k, st2.language_name = some k → st.language_name = some k ∨
      ∃ l, (l = 2 ∨ l = 3) ∧ (l, k) ∈ st.headers) ∧
    (∀ l k, (l, k) ∈ st2.headers → (l, k) ∈ st.headers ∨
      (((n.name = "h2" ∧ l = 2) ∨ (n.name = "h3" ∧ l = 3) ∨ (n.name = "h4" ∧ l = 4)) ∧
        k = n.text)) := by
  unfold find_entries_step at h
  split at h
  · rename_i hpos
    split at h
    · cases h
    · rename_i t hlast
      injection h with h2
      subst h2
      refine ⟨fun _ => ⟨t, rfl⟩, fun k hk => Or.inl hk, ?_, fun l k hk => headersAfter_mem hk⟩
      intro k hk
      injection hk with hk2
      subst hk2
      right
      have hmem := getLast?_mem_of_eq_some hlast
      simp only [List.mem_map] at hmem
      obtain ⟨pr, hpr, hpr2⟩ := hmem
      have hfil := List.mem_filter.mp hpr
      obtain ⟨hprh, hprl⟩ := hfil
      have hlvl : pr.1 = (tagLevel n.name).getD 0 - 1 := by
        simpa using hprl
      rcases is_pos_header_level hpos with ⟨hn, hn2⟩ | ⟨hn, hn2⟩
      · rcases headersAfter_mem (show (pr.1, pr.2) ∈ headersAfter st n from hprh) with hin | hnew
        · refine ⟨pr.1, ?_, hpr2 ▸ hin⟩
          left
          rw [hlvl, hn2]
          rfl
        · exfalso
          obtain ⟨hcase, _⟩ := hnew
          rcases hcase with ⟨he, hl⟩ | ⟨he, hl⟩ | ⟨he, hl⟩ <;>
            (rw [he] at hn; rw [hn2] at hlvl;
             simp only [Option.getD_some] at hlvl;
             first
             | exact absurd hn (by decide)
             | omega)
      · rcases headersAfter_mem (show (pr.1, pr.2) ∈ headersAfter st n from hprh) with hin | hnew
        · refine ⟨pr.1, ?_, hpr2 ▸ hin⟩
          right
          rw [hlvl, hn2]
          rfl
        · exfalso
          obtain ⟨hcase, _⟩ := hnew
          rcases hcase with ⟨he, hl⟩ | ⟨he, hl⟩ | ⟨he, hl⟩ <;>
            (rw [he] at hn; rw [hn2] at hlvl;
             simp only [Option.getD_some] at hlvl;
             first
             | exact absurd hn (by decide)
             | omega)
  · rename_i hpos
    split at h
    · rename_i hli
      have hread : st.reading_entries = true := by
        have h3 := hli
        simp only [Bool.and_eq_true] at h3
        exact h3.1
      obtain ⟨t, hT⟩ := hL hread
      split at h
      · injection h with h2
        subst h2
        refine ⟨fun _ => ⟨t, hT⟩, ?_, fun k hk => Or.inl hk,
          fun l k hk => headersAfter_mem hk⟩
        intro k hk
        rcases addEntry_keys hk with h1 | h2
        · exact Or.inl h1
        · right
          subst h2
          rw [hT]
          rfl
      · rename_i cont hcont
        split at h
        · injection h with h2
          subst h2
          refine ⟨fun hr => absurd (show false = true from hr) (by decide),
            fun k hk => Or.inl hk, fun k hk => Or.inl hk,
            fun l k hk => headersAfter_mem hk⟩
        · injection h with h2
          subst h2
          refine ⟨fun _ => ⟨t, hT⟩, ?_, fun k hk => Or.inl hk,
            fun l k hk => headersAfter_mem hk⟩
          intro k hk
          rcases addEntry_keys hk with h1 | h2
          · exact Or.inl h1
          · right
            subst h2
            rw [hT]
            rfl
    · rename_i hli
      split at h
      · injection h with h2
        subst h2
        refine ⟨fun hr => absurd (show false = true from hr) (by decide),
          fun k hk => Or.inl hk, fun k hk => Or.inl hk,
          fun l k hk => headersAfter_mem hk⟩
      · injection h with h2
        subst h2
        exact ⟨fun hr => hL hr, fun k hk => Or.inl hk, fun k hk => Or.inl hk,
          fun l k hk => headersAfter_mem hk⟩

/-- The property that a string is the text of some h2 or h3 node of the
traversal. -/
def keyOrigin (nodes : List DNode) (k : String) : Prop :=
  ∃ n ∈ nodes, (n.name = "h2" ∨ n.name = "h3") ∧ n.text = k

theorem run_transfer (validPos : List String) :
    ∀ (nodes : List DNode) (st0 st1 : FEState),
      List.foldlM (find_entries_step validPos) st0 nodes = .ok st1 → Linv st0 →
      Linv st1 ∧
      (∀ k, k ∈ st1.entries.map Prod.fst →
        k ∈ st0.entries.map Prod.fst ∨ st0.language_name = some k ∨
        (∃ l, (l = 2 ∨ l = 3) ∧ (l, k) ∈ st0.headers) ∨ keyOrigin nodes k) ∧
      (∀ k, st1.language_name = some k →
        st0.language_name = some k ∨
        (∃ l, (l = 2 ∨ l = 3) ∧ (l, k) ∈ st0.headers) ∨ keyOrigin nodes k) ∧
      (∀ l k, (l = 2 ∨ l = 3) → (l, k) ∈ st1.headers →
        (l, k) ∈ st0.headers ∨ keyOrigin nodes k) := by
  intro nodes
  induction nodes with
  | nil =>
    intro st0 st1 h hL
    simp only [List.foldlM_nil] at h
    have h2 : (Except.ok st0 : Except String FEState) = Except.ok st1 := h
    injection h2 with h3
    subst h3
    exact ⟨hL, fun k hk => Or.inl hk, fun k hk => Or.inl hk, fun l k _ hk => Or.inl hk⟩
  | cons n ns ih =>
    intro st0 st1 h hL
    rw [List.foldlM_cons] at h
    cases hfa : find_entries_step validPos st0 n with
    | error e =>
      rw [hfa] at h
      have h2 : (Except.error e : Except String FEState) = Except.ok st1 := h
      cases h2
    | ok s =>
      rw [hfa] at h
      have h2 : List.foldlM (find_entries_step validPos) s ns = Except.ok st1 := h
      obtain ⟨hLs, hks, hls, hhs⟩ := step_transfer validPos st0 s n hfa hL
      obtain ⟨hL1, hk1, hl1, hh1⟩ := ih s st1 h2 hLs
      have horigin : ∀ l k, (l = 2 ∨ l = 3) → (l, k) ∈ s.headers →
          (l, k) ∈ st0.headers ∨ keyOrigin (n :: ns) k := by
        intro l k hl23 hk
        rcases hhs l k hk with hin | ⟨hname, htext⟩
        · exact Or.inl hin
        · right
          rcases hname with ⟨hn, _⟩ | ⟨hn, _⟩ | ⟨hn, hl4⟩
          · exact ⟨n, List.mem_cons_self n ns, Or.inl hn, htext.symm⟩
          · exact ⟨n, List.mem_cons_self n ns, Or.inr hn, htext.symm⟩
          · rcases hl23 with h2' | h3' <;> omega
      have hlang : ∀ k, s.language_name = some k →
          st0.language_name = some k ∨
          (∃ l, (l = 2 ∨ l = 3) ∧ (l, k) ∈ st0.headers) ∨ keyOrigin (n :: ns) k := by
        intro k hk
        rcases hls k hk with h1 | ⟨l, hl23, hmem⟩
        · exact Or.inl h1
        · exact Or.inr (Or.inl ⟨l, hl23, hmem⟩)
      refine ⟨hL1, ?_, ?_, ?_⟩
      · intro k hk
        rcases hk1 k hk with h1 | h2' | ⟨l, hl23, hmem⟩ | h4
        · rcases hks k h1 with ha | hb
          · exact Or.inl ha
          · exact Or.inr (Or.inl hb)
        · rcases hlang k h2' with ha | hb | hc
          · exact Or.inr (Or.inl ha)
          · exact Or.inr (Or.inr (Or.inl hb))
          · exact Or.inr (Or.inr (Or.inr hc))
        · rcases horigin l k hl23 hmem with hin | hko
          · exact Or.inr (Or.inr (Or.inl ⟨l, hl23, hin⟩))
          · exact Or.inr (Or.inr (Or.inr hko))
        · refine Or.inr (Or.inr (Or.inr ?_))
          obtain ⟨m, hm, hmp⟩ := h4
          exact ⟨m, List.mem_cons_of_mem n hm, hmp⟩
      · intro k hk
        rcases hl1 k hk with h1 | ⟨l, hl23, hmem⟩ | h3'
        · exact hlang k h1
        · rcases horigin l k hl23 hmem with hin | hko
          · exact Or.inr (Or.inl ⟨l, hl23, hin⟩)
          · exact Or.inr (Or.inr hko)
        · refine Or.inr (Or.inr ?_)
          obtain ⟨m, hm, hmp⟩ := h3'
          exact ⟨m, List.mem_cons_of_mem n hm, hmp⟩
      · intro l k hl23 hk
        rcases hh1 l k hl23 hk with h1 | h2'
        · exact horigin l k hl23 h1
        · right
          obtain ⟨m, hm, hmp⟩ := h2'
          exact ⟨m, List.mem_cons_of_mem n hm, hmp⟩

/-- Counterexample to claim C6 as stated: with Etymology among the excluded
section titles and Noun the only part-of-speech label, the document h2
English, h3 Etymology, h4 Noun, li records its entry under the key
Etymology (the most recent level-3 header), but the only node classified
as a language header in the document is the h2 English — so a language key
need not be the text of a language header. -/
theorem c6_counterexample :
    find_entries ["Noun"]
        [⟨"h2", "English", 0, []⟩, ⟨"h3", "Etymology", 0, []⟩, ⟨"h4", "Noun", 0, []⟩,
         ⟨"li", "x", 1, ["x"]⟩] = .ok [("Etymology", [["x"]])] ∧
    (List.filter (fun n => is_language_header ["Noun"] ["Etymology"] n)
        [⟨"h2", "English", 0, []⟩, ⟨"h3", "Etymology", 0, []⟩, ⟨"h4", "Noun", 0, []⟩,
         ⟨"li", "x", 1, ["x"]⟩]).map (fun n => n.text) = ["English"] :=
  ⟨rfl, rfl⟩

/-- Claim C6 (amended): every language key under which the extractor
records entries is the text of some traversed header node of level 2 or 3
(the most recent header exactly one level above the triggering
part-of-speech header); it need not be classified as a language header —
it can be an excluded section title or even another part-of-speech
header's text (c6_counterexample). -/
theorem c6_keys_are_h2_h3_texts (validPos : List String) (nodes : List DNode)
    (es : List (String × List (List String)))
    (h : find_entries validPos nodes = .ok es) :
    ∀ k ∈ es.map Prod.fst, keyOrigin nodes k := by
  unfold find_entries at h
  cases hrun : find_entries_run validPos nodes with
  | error e =>
    rw [hrun] at h
    have h2 : (Except.error e : Except String (List (String × List (List String)))) =
        Except.ok es := h
    cases h2
  | ok st1 =>
    rw [hrun] at h
    have h2 : (Except.ok st1.entries : Except String (List (String × List (List String)))) =
        Except.ok es := h
    injection h2 with h3
    subst h3
    intro k hk
    have hinit : Linv initFEState := by
      intro hr
      simp [initFEState] at hr
    have hrt := run_transfer validPos nodes initFEState st1 hrun hinit
    rcases hrt.2.1 k hk with h1 | h2' | ⟨l, _, hmem⟩ | h4
    · simp [initFEState] at h1
    · simp [initFEState] at h2'
    · simp [initFEState] at hmem
    · exact h4

/-- Witness for C6: the single key English of a well-formed document is the
text of its h2 header. -/
theorem c6_witness :
    keyOrigin [⟨"h2", "English", 0, []⟩, ⟨"h3", "Noun", 0, []⟩, ⟨"li", "x", 1, ["x"]⟩]
      "English" :=
  c6_keys_are_h2_h3_texts ["Noun"]
    [⟨"h2", "English", 0, []⟩, ⟨"h3", "Noun", 0, []⟩, ⟨"li", "x", 1, ["x"]⟩]
    [("English", [["x"]])] rfl "English" (by simp)

/-! ## Record serializer (format_conllu, core.py lines 223-279) -/

/-- Lexicographic comparison of character lists by code point: the string
order Python's sorted uses on the language names. -/
def charListLe : List Char → List Char → Bool
  | [], _ => true
  | _ :: _, [] => false
  | a :: as, b :: bs => if a = b then charListLe as bs else decide (a < b)

/-- Lexicographic string comparison (Python string ≤). -/
def strLe (a b : String) : Bool := charListLe a.toList b.toList

theorem charListLe_refl : ∀ as, charListLe as as = true
  | [] => rfl
  | a :: as => by simp [charListLe, charListLe_refl as]

theorem charListLe_total : ∀ as bs, charListLe as bs = true ∨ charListLe bs as = true
  | [], _ => Or.inl rfl
  | _ :: _, [] => Or.inr rfl
  | a :: as, b :: bs => by
    by_cases hab : a = b
    · subst hab
      rcases charListLe_total as bs with h | h
      · exact Or.inl (by simp [charListLe, h])
      · exact Or.inr (by simp [charListLe, h])
    · rcases lt_or_gt_of_ne hab with hlt | hgt
      · exact Or.inl (by simp [charListLe, hab, hlt])
      · exact Or.inr (by simp [charListLe, Ne.symm hab, hgt])

theorem charListLe_trans : ∀ as bs cs, charListLe as bs = true →
    charListLe bs cs = true → charListLe as cs = true
  | [], _, _ => fun _ _ => rfl
  | a :: as, [], _ => fun h _ => by simp [charListLe] at h
  | a :: as, b :: bs, [] => fun _ h2 => by simp [charListLe] at h2
  | a :: as, b :: bs, c :: cs => fun h1 h2 => by
    by_cases hab : a = b
    · by_cases hbc : b = c
      · subst hab
        subst hbc
        simp only [charListLe, if_pos rfl] at h1 h2 ⊢
        exact charListLe_trans as bs cs h1 h2
      · subst hab
        simp only [charListLe, if_neg hbc, decide_eq_true_eq] at h2 ⊢
        exact h2
    · by_cases hbc : b = c
      · subst hbc
        simp only [charListLe, if_neg hab, decide_eq_true_eq] at h1 ⊢
        exact h1
      · simp only [charListLe, if_neg hab, decide_eq_true_eq] at h1
        simp only [charListLe, if_neg hbc, decide_eq_true_eq] at h2
        have hac : a < c := lt_trans h1 h2
        have hne : a ≠ c := ne_of_lt hac
        simp only [charListLe, if_neg hne, decide_eq_true_eq]
        exact hac

theorem strLe_refl (s : String) : strLe s s = true := charListLe_refl _

theorem strLe_total (a b : String) : strLe a b = true ∨ strLe b a = true :=
  charListLe_total _ _

theorem strLe_trans {a b c : String} (h1 : strLe a b = true) (h2 : strLe b c = true) :
    strLe a c = true :=
  charListLe_trans _ _ _ h1 h2

/-- One serialized Record Block: the entry's annotated tokens plus the url
and language metadata (core.py lines 273-275).  Textual rendering
(TokenList.serialize) belongs to the external conllu library; the model
stops at the ordered list of blocks. -/
structure Sentence where
  language : String
  url : String
  tokens : List AnnTok
deriving DecidableEq

/-- The inner loop of format_conllu over one language's entries, in
discovery order (core.py line 226). -/
def tagEntries (gh : String → String) (url lang : String) :
    List (List String) → Option (List Sentence)
  | [] => some []
  | e :: es =>
    match tagTokens gh e with
    | none => none
    | some ts => (tagEntries gh url lang es).map (fun ss => ⟨lang, url, ts⟩ :: ss)

/-- The outer loop of format_conllu over the language groups in the order
produced by sorted(entries.items(), key=lambda x: x[0]). -/
def format_groups (gh : String → String) (url : String) :
    List (String × List (List String)) → Option (List Sentence)
  | [] => some []
  | (lang, es) :: rest =>
    match tagEntries gh url lang es with
    | none => none
    | some ss => (format_groups gh url rest).map (fun ss2 => ss ++ ss2)

/-- format_conllu: iterate the languages sorted lexicographically by name
(Python sorted is a stable sort, modelled by insertion sort on the first
component) and emit each group's Record Blocks in discovery order. -/
def format_conllu (gh : String → String) (url : String)
    (entries : List (String × List (List String))) : Option (List Sentence) :=
  format_groups gh url
    (List.insertionSort (fun a b => strLe a.1 b.1 = true) entries)

theorem tagEntries_lang (gh : String → String) (url lang : String) :
    ∀ (es : List (List String)) (ss : List Sentence),
      tagEntries gh url lang es = some ss → ∀ s ∈ ss, s.language = lang := by
  intro es
  induction es with
  | nil =>
    intro ss h s hs
    simp only [tagEntries, Option.some.injEq] at h
    subst h
    cases hs
  | cons e es ih =>
    intro ss h s hs
    unfold tagEntries at h
    split at h
    · cases h
    · rename_i ts hts
      rw [Option.map_eq_some'] at h
      obtain ⟨ss2, hss2, hss⟩ := h
      subst hss
      rcases List.mem_cons.mp hs with rfl | hmem
      · rfl
      · exact ih ss2 hss2 s hmem

theorem format_groups_lang (gh : String → String) (url : String) :
    ∀ (gl : List (String × List (List String))) (ss : List Sentence),
      format_groups gh url gl = some ss →
      ∀ s ∈ ss, s.language ∈ gl.map Prod.fst := by
  intro gl
  induction gl with
  | nil =>
    intro ss h s hs
    simp only [format_groups, Option.some.injEq] at h
    subst h
    cases hs
  | cons g rest ih =>
    obtain ⟨lang, es⟩ := g
    intro ss h s hs
    unfold format_groups at h
    split at h
    · cases h
    · rename_i sh hsh
      rw [Option.map_eq_some'] at h
      obtain ⟨st', hst', hss⟩ := h
      subst hss
      rcases List.mem_append.mp hs with hmem | hmem
      · rw [List.map_cons]
        exact List.mem_cons.mpr (Or.inl (tagEntries_lang gh url lang es sh hsh s hmem))
      · rw [List.map_cons]
        exact List.mem_cons.mpr (Or.inr (ih st' hst' s hmem))

theorem pairwise_le_of_const (c : String) {l : List String} (h : ∀ x ∈ l, x = c) :
    l.Pairwise (fun a b => strLe a b = true) := by
  induction l with
  | nil => simp
  | cons x xs ih =>
    rw [List.pairwise_cons]
    refine ⟨?_, ih (fun y hy => h y (List.mem_cons_of_mem _ hy))⟩
    intro y hy
    rw [h x (by simp), h y (List.mem_cons_of_mem _ hy)]
    exact strLe_refl c

theorem format_groups_sorted (gh : String → String) (url : String) :
    ∀ (gl : List (String × List (List String))) (ss : List Sentence),
      format_groups gh url gl = some ss →
      (gl.map Prod.fst).Pairwise (fun a b => strLe a b = true) →
      (ss.map (fun s => s.language)).Pairwise (fun a b => strLe a b = true) := by
  intro gl
  induction gl with
  | nil =>
    intro ss h _
    simp only [format_groups, Option.some.injEq] at h
    subst h
    simp
  | cons g rest ih =>
    obtain ⟨lang, es⟩ := g
    intro ss h hsort
    unfold format_groups at h
    split at h
    · cases h
    · rename_i sh hsh
      rw [Option.map_eq_some'] at h
      obtain ⟨st', hst', hss⟩ := h
      subst hss
      rw [List.map_cons, List.pairwise_cons] at hsort
      obtain ⟨hle, hrest⟩ := hsort
      rw [List.map_append, List.pairwise_append]
      refine ⟨?_, ih st' hst' hrest, ?_⟩
      · apply pairwise_le_of_const lang
        intro x hx
        rw [List.mem_map] at hx
        obtain ⟨s1, hs1, hs1e⟩ := hx
        rw [← hs1e]
        exact tagEntries_lang gh url lang es sh hsh s1 hs1
      · intro a ha b hb
        rw [List.mem_map] at ha hb
        obtain ⟨s1, hs1, hs1e⟩ := ha
        obtain ⟨s2, hs2, hs2e⟩ := hb
        have ha1 : a = lang := by
          rw [← hs1e]
          exact tagEntries_lang gh url lang es sh hsh s1 hs1
        have hb2 : s2.language ∈ rest.map Prod.fst :=
          format_groups_lang gh url rest st' hst' s2 hs2
        rw [ha1, ← hs2e]
        exact hle s2.language hb2

instance : IsTotal (String × List (List String)) (fun a b => strLe a.1 b.1 = true) :=
  ⟨fun a b => strLe_total a.1 b.1⟩

instance : IsTrans (String × List (List String)) (fun a b => strLe a.1 b.1 = true) :=
  ⟨fun _ _ _ hab hbc => strLe_trans hab hbc⟩

/-- Claim C8: the serializer emits the per-language groups of Record Blocks
in lexicographic order of the language name — in the produced block
sequence the language metadata values are pairwise ≤; in particular for a
document with French and English entries every English block precedes
every French block (c8_witness). -/
theorem c8_languages_sorted (gh : String → String) (url : String)
    (entries : List (String × List (List String))) (ss : List Sentence)
    (h : format_conllu gh url entries = some ss) :
    (ss.map (fun s => s.language)).Pairwise (fun a b => strLe a b = true) := by
  apply format_groups_sorted gh url _ ss h
  have hs := List.sorted_insertionSort
    (fun a b : String × List (List String) => strLe a.1 b.1 = true) entries
  rw [List.pairwise_map]
  exact hs

/-- Witness for C8: entries discovered French-first serialize English-first. -/
theorem c8_witness :
    (List.map (fun s => s.language)
        [Sentence.mk "English" "u" [AnnTok.mk 1 "hello" "O" none],
         Sentence.mk "French" "u" [AnnTok.mk 1 "bonjour" "O" none]]).Pairwise
      (fun a b => strLe a b = true) :=
  c8_languages_sorted (fun _ => "x") "u"
    [("French", [["bonjour"]]), ("English", [["hello"]])]
    [Sentence.mk "English" "u" [AnnTok.mk 1 "hello" "O" none],
     Sentence.mk "French" "u" [AnnTok.mk 1 "bonjour" "O" none]]
    (by decide)

/-! ## Markup normalizer (clean_html, core.py lines 25-101)

The document tree is modelled by the mutual inductives HNode / HForest;
node removal passes (discard_elements on a CSS denylist, discard_comments)
are one generic removal pass over a predicate on the node head, unwrapping
(excise_elements) and empty-node removal (discard_empty_elements) are their
own passes.  The depth-descending in-place mutation of the source is
realized by the structural recursion: children are processed inside their
parent, which has the same effect as innermost-first extraction. -/

mutual
inductive HNode where
  | tag (name : String) (attrs : List (String × String)) (children : HForest)
  | text (s : String)
  | comment (s : String)
inductive HForest where
  | nil
  | cons (n : HNode) (f : HForest)
end

/-- The constructor head of a node: what a selector can match on. -/
inductive HHead where
  | tag (name : String) (attrs : List (String × String))
  | text (s : String)
  | comment (s : String)

def HForest.append : HForest → HForest → HForest
  | .nil, g => g
  | .cons n f, g => .cons n (f.append g)

/-- The attribute lookup node.attrs.get(key). -/
def lookupAttr (attrs : List (String × String)) (key : String) : Option String :=
  (attrs.find? (fun p => p.1 == key)).map (fun p => p.2)

/-- The whitespace-separated words of the class attribute (CSS class
matching is word-based). -/
def classWords (attrs : List (String × String)) : List String :=
  match lookupAttr attrs "class" with
  | none => []
  | some v => (v.split (fun c => pyWsChars.contains c)).filter (fun w => !w.isEmpty)

def hasClass (attrs : List (String × String)) (c : String) : Bool :=
  (classWords attrs).contains c

/-- Substring test for the attribute-contains selector. -/
def strHasSub (s pat : String) : Bool := decide (1 < (s.splitOn pat).length)

def attrValContains (attrs : List (String × String)) (key sub : String) : Bool :=
  match lookupAttr attrs key with
  | none => false
  | some v => strHasSub v sub

/-- The fixed denylist of clean_html (core.py lines 80-97): tag-name
selectors, the two class selectors, the id selector and the
class-contains selector. -/
def discardPred (name : String) (attrs : List (String × String)) : Bool :=
  ["script", "style", "audio", "video", "hr", "img", "label", "footer",
    "nav"].contains name
  || hasClass attrs "interlanguage-link-target"
  || (lookupAttr attrs "id" == some "mw-toc-heading")
  || attrValContains attrs "class" "toclevel-"
  || hasClass attrs "mw-editsection"

/-- The wrapper tags excised by clean_html (core.py line 98). -/
def excisePred (name : String) (_ : List (String × String)) : Bool :=
  ["head", "html", "div", "span", "b"].contains name

/-- A head predicate matching tags under an attribute predicate. -/
def tagBad (p : String → List (String × String) → Bool) : HHead → Bool
  | .tag nm attrs => p nm attrs
  | _ => false

/-- A head predicate matching comment nodes (discard_comments). -/
def commentBad : HHead → Bool
  | .comment _ => true
  | _ => false

mutual
/-- Generic removal pass (discard_elements / discard_comments): drop every
node whose head matches, together with its subtree. -/
def removeNode (bad : HHead → Bool) : HNode → Option HNode
  | .tag nm attrs cs =>
    if bad (.tag nm attrs) then none else some (.tag nm attrs (removeForest bad cs))
  | .text s => if bad (.text s) then none else some (.text s)
  | .comment s => if bad (.comment s) then none else some (.comment s)
def removeForest (bad : HHead → Bool) : HForest → HForest
  | .nil => .nil
  | .cons n f =>
    match removeNode bad n with
    | none => removeForest bad f
    | some n2 => .cons n2 (removeForest bad f)
end

mutual
/-- excise_elements: replace each matching wrapper tag by its (recursively
processed) children, preserving order. -/
def exciseNode (q : String → List (String × String) → Bool) : HNode → HForest
  | .tag nm attrs cs =>
    if q nm attrs then exciseForest q cs
    else .cons (.tag nm attrs (exciseForest q cs)) .nil
  | .text s => .cons (.text s) .nil
  | .comment s => .cons (.comment s) .nil
def exciseForest (q : String → List (String × String) → Bool) : HForest → HForest
  | .nil => .nil
  | .cons n f => HForest.append (exciseNode q n) (exciseForest q f)
end

mutual
/-- get_text(strip=True) is empty: every text node of the subtree is
whitespace-only (comments contribute nothing; they are removed before the
empty-element pass in clean_html). -/
def strippedEmptyNode : HNode → Bool
  | .tag _ _ cs => strippedEmptyForest cs
  | .text s => s.trim == ""
  | .comment _ => true
def strippedEmptyForest : HForest → Bool
  | .nil => true
  | .cons n f => strippedEmptyNode n && strippedEmptyForest f
end

mutual
/-- discard_empty_elements: drop every tag whose stripped text is empty and
whose name is not exempt (text and comment nodes are not tags and stay). -/
def dropEmptyNode (exempt : List String) : HNode → Option HNode
  | .tag nm attrs cs =>
    if strippedEmptyForest cs && !exempt.contains nm then none
    else some (.tag nm attrs (dropEmptyForest exempt cs))
  | .text s => some (.text s)
  | .comment s => some (.comment s)
def dropEmptyForest (exempt : List String) : HForest → HForest
  | .nil => .nil
  | .cons n f =>
    match dropEmptyNode exempt n with
    | none => dropEmptyForest exempt f
    | some n2 => .cons n2 (dropEmptyForest exempt f)
end

/-- clean_html (core.py lines 79-101) on the children forest of the page
body: discard the denylist, excise the wrappers, discard comments, discard
empty elements (with an empty exemption set). -/
def clean_html (f : HForest) : HForest :=
  dropEmptyForest []
    (removeForest commentBad
      (exciseForest excisePred
        (removeForest (tagBad discardPred) f)))

mutual
/-- No node of this tree has a matching head. -/
def noBadNode (bad : HHead → Bool) : HNode → Bool
  | .tag nm attrs cs => !bad (.tag nm attrs) && noBadForest bad cs
  | .text s => !bad (.text s)
  | .comment s => !bad (.comment s)
def noBadForest (bad : HHead → Bool) : HForest → Bool
  | .nil => true
  | .cons n f => noBadNode bad n && noBadForest bad f
end

theorem noBadForest_append (bad : HHead → Bool) :
    ∀ (f g : HForest), noBadForest bad (HForest.append f g) =
      (noBadForest bad f && noBadForest bad g)
  | .nil, g => by simp [HForest.append, noBadForest]
  | .cons n f, g => by
    simp [HForest.append, noBadForest, noBadForest_append bad f g, Bool.and_assoc]

mutual
theorem noBad_removeNode (bad : HHead → Bool) :
    ∀ (n n2 : HNode), removeNode bad n = some n2 → noBadNode bad n2 = true
  | .tag nm attrs cs, n2, h => by
    unfold removeNode at h
    split at h
    · cases h
    · rename_i hb
      injection h with h2
      subst h2
      simp only [noBadNode, Bool.and_eq_true, Bool.not_eq_true']
      exact ⟨by simpa using hb, noBad_removeForest bad cs⟩
  | .text s, n2, h => by
    unfold removeNode at h
    split at h
    · cases h
    · rename_i hb
      injection h with h2
      subst h2
      simp only [noBadNode, Bool.not_eq_true']
      simpa using hb
  | .comment s, n2, h => by
    unfold removeNode at h
    split at h
    · cases h
    · rename_i hb
      injection h with h2
      subst h2
      simp only [noBadNode, Bool.not_eq_true']
      simpa using hb
theorem noBad_removeForest (bad : HHead → Bool) :
    ∀ (f : HForest), noBadForest bad (removeForest bad f) = true
  | .nil => rfl
  | .cons n f => by
    unfold removeForest
    cases hrn : removeNode bad n with
    | none => exact noBad_removeForest bad f
    | some n2 =>
      simp only [noBadForest, Bool.and_eq_true]
      exact ⟨noBad_removeNode bad n n2 hrn, noBad_removeForest bad f⟩
end

mutual
theorem removeNode_of_noBad (bad : HHead → Bool) :
    ∀ (n : HNode), noBadNode bad n = true → removeNode bad n = some n
  | .tag nm attrs cs, h => by
    simp only [noBadNode, Bool.and_eq_true, Bool.not_eq_true'] at h
    unfold removeNode
    rw [if_neg (by simp [h.1]), removeForest_of_noBad bad cs h.2]
  | .text s, h => by
    simp only [noBadNode, Bool.not_eq_true'] at h
    unfold removeNode
    rw [if_neg (by simp [h])]
  | .comment s, h => by
    simp only [noBadNode, Bool.not_eq_true'] at h
    unfold removeNode
    rw [if_neg (by simp [h])]
theorem removeForest_of_noBad (bad : HHead → Bool) :
    ∀ (f : HForest), noBadForest bad f = true → removeForest bad f = f
  | .nil, _ => rfl
  | .cons n f, h => by
    simp only [noBadForest, Bool.and_eq_true] at h
    unfold removeForest
    rw [removeNode_of_noBad bad n h.1, removeForest_of_noBad bad f h.2]
end

mutual
theorem noBad_removeNode_preserve (bad bad2 : HHead → Bool) :
    ∀ (n n2 : HNode), noBadNode bad n = true → removeNode bad2 n = some n2 →
      noBadNode bad n2 = true
  | .tag nm attrs cs, n2, h, hr => by
    unfold removeNode at hr
    split at hr
    · cases hr
    · injection hr with h2
      subst h2
      simp only [noBadNode, Bool.and_eq_true] at h ⊢
      exact ⟨h.1, noBad_removeForest_preserve bad bad2 cs h.2⟩
  | .text s, n2, h, hr => by
    unfold removeNode at hr
    split at hr
    · cases hr
    · injection hr with h2
      subst h2
      exact h
  | .comment s, n2, h, hr => by
    unfold removeNode at hr
    split at hr
    · cases hr
    · injection hr with h2
      subst h2
      exact h
theorem noBad_removeForest_preserve (bad bad2 : HHead → Bool) :
    ∀ (f : HForest), noBadForest bad f = true →
      noBadForest bad (removeForest bad2 f) = true
  | .nil, _ => rfl
  | .cons n f, h => by
    simp only [noBadForest, Bool.and_eq_true] at h
    unfold removeForest
    cases hrn : removeNode bad2 n with
    | none => exact noBad_removeForest_preserve bad bad2 f h.2
    | some n2 =>
      simp only [noBadForest, Bool.and_eq_true]
      exact ⟨noBad_removeNode_preserve bad bad2 n n2 h.1 hrn,
        noBad_removeForest_preserve bad bad2 f h.2⟩
end

mutual
theorem noBad_exciseNode_preserve (bad : HHead → Bool)
    (q : String → List (String × String) → Bool) :
    ∀ (n : HNode), noBadNode bad n = true → noBadForest bad (exciseNode q n) = true
  | .tag nm attrs cs, h => by
    simp only [noBadNode, Bool.and_eq_true] at h
    unfold exciseNode
    split
    · exact noBad_exciseForest_preserve bad q cs h.2
    · simp only [noBadForest, noBadNode, Bool.and_eq_true]
      exact ⟨⟨h.1, noBad_exciseForest_preserve bad q cs h.2⟩, trivial⟩
  | .text s, h => by
    simp only [exciseNode, noBadForest, Bool.and_eq_true]
    exact ⟨h, trivial⟩
  | .comment s, h => by
    simp only [exciseNode, noBadForest, Bool.and_eq_true]
    exact ⟨h, trivial⟩
theorem noBad_exciseForest_preserve (bad : HHead → Bool)
    (q : String → List (String × String) → Bool) :
    ∀ (f : HForest), noBadForest bad f = true →
      noBadForest bad (exciseForest q f) = true
  | .nil, _ => rfl
  | .cons n f, h => by
    simp only [noBadForest, Bool.and_eq_true] at h
    unfold exciseForest
    rw [noBadForest_append]
    simp only [Bool.and_eq_true]
    exact ⟨noBad_exciseNode_preserve bad q n h.1,
      noBad_exciseForest_preserve bad q f h.2⟩
end

mutual
theorem noQ_exciseNode (q : String → List (String × String) → Bool) :
    ∀ (n : HNode), noBadForest (tagBad q) (exciseNode q n) = true
  | .tag nm attrs cs => by
    unfold exciseNode
    split
    · exact noQ_exciseForest q cs
    · rename_i hq
      simp only [noBadForest, noBadNode, Bool.and_eq_true, tagBad, Bool.not_eq_true']
      exact ⟨⟨by simpa using hq, noQ_exciseForest q cs⟩, trivial⟩
  | .text s => by simp [exciseNode, noBadForest, noBadNode, tagBad]
  | .comment s => by simp [exciseNode, noBadForest, noBadNode, tagBad]
theorem noQ_exciseForest (q : String → List (String × String) → Bool) :
    ∀ (f : HForest), noBadForest (tagBad q) (exciseForest q f) = true
  | .nil => rfl
  | .cons n f => by
    unfold exciseForest
    rw [noBadForest_append]
    simp only [Bool.and_eq_true]
    exact ⟨noQ_exciseNode q n, noQ_exciseForest q f⟩
end

mutual
theorem exciseNode_of_noQ (q : String → List (String × String) → Bool) :
    ∀ (n : HNode), noBadNode (tagBad q) n = true → exciseNode q n = .cons n .nil
  | .tag nm attrs cs, h => by
    simp only [noBadNode, tagBad, Bool.and_eq_true, Bool.not_eq_true'] at h
    unfold exciseNode
    rw [if_neg (by simp [h.1]), exciseForest_of_noQ q cs h.2]
  | .text s, _ => rfl
  | .comment s, _ => rfl
theorem exciseForest_of_noQ (q : String → List (String × String) → Bool) :
    ∀ (f : HForest), noBadForest (tagBad q) f = true → exciseForest q f = f
  | .nil, _ => rfl
  | .cons n f, h => by
    simp only [noBadForest, Bool.and_eq_true] at h
    unfold exciseForest
    rw [exciseNode_of_noQ q n h.1, exciseForest_of_noQ q f h.2]
    rfl
end

theorem dropEmptyForest_cons (ex : List String) (n : HNode) (f : HForest) :
    dropEmptyForest ex (HForest.cons n f) =
      match dropEmptyNode ex n with
      | none => dropEmptyForest ex f
      | some n2 => .cons n2 (dropEmptyForest ex f) := rfl

mutual
theorem noBad_dropEmptyNode_preserve (bad : HHead → Bool) (ex : List String) :
    ∀ (n n2 : HNode), noBadNode bad n = true → dropEmptyNode ex n = some n2 →
      noBadNode bad n2 = true
  | .tag nm attrs cs, n2, h, hr => by
    unfold dropEmptyNode at hr
    split at hr
    · cases hr
    · injection hr with h2
      subst h2
      simp only [noBadNode, Bool.and_eq_true] at h ⊢
      exact ⟨h.1, noBad_dropEmptyForest_preserve bad ex cs h.2⟩
  | .text s, n2, h, hr => by
    unfold dropEmptyNode at hr
    injection hr with h2
    subst h2
    exact h
  | .comment s, n2, h, hr => by
    unfold dropEmptyNode at hr
    injection hr with h2
    subst h2
    exact h
theorem noBad_dropEmptyForest_preserve (bad : HHead → Bool) (ex : List String) :
    ∀ (f : HForest), noBadForest bad f = true →
      noBadForest bad (dropEmptyForest ex f) = true
  | .nil, _ => rfl
  | .cons n f, h => by
    simp only [noBadForest, Bool.and_eq_true] at h
    unfold dropEmptyForest
    cases hdn : dropEmptyNode ex n with
    | none => exact noBad_dropEmptyForest_preserve bad ex f h.2
    | some n2 =>
      simp only [noBadForest, Bool.and_eq_true]
      exact ⟨noBad_dropEmptyNode_preserve bad ex n n2 h.1 hdn,
        noBad_dropEmptyForest_preserve bad ex f h.2⟩
end

mutual
theorem strippedEmpty_dropNode (ex : List String) :
    ∀ (n n2 : HNode), dropEmptyNode ex n = some n2 →
      strippedEmptyNode n2 = strippedEmptyNode n
  | .tag nm attrs cs, n2, h => by
    unfold dropEmptyNode at h
    split at h
    · cases h
    · injection h with h2
      subst h2
      simp only [strippedEmptyNode]
      exact strippedEmpty_dropForest ex cs
  | .text s, n2, h => by
    unfold dropEmptyNode at h
    injection h with h2
    subst h2
    rfl
  | .comment s, n2, h => by
    unfold dropEmptyNode at h
    injection h with h2
    subst h2
    rfl
theorem strippedEmpty_dropForest (ex : List String) :
    ∀ (f : HForest), strippedEmptyForest (dropEmptyForest ex f) = strippedEmptyForest f
  | .nil => rfl
  | .cons n f => by
    unfold dropEmptyForest
    cases hdn : dropEmptyNode ex n with
    | none =>
      have hne : strippedEmptyNode n = true := by
        cases n with
        | tag nm attrs cs =>
          unfold dropEmptyNode at hdn
          split at hdn
          · rename_i hcond
            simp only [Bool.and_eq_true] at hcond
            simpa [strippedEmptyNode] using hcond.1
          · cases hdn
        | text s => unfold dropEmptyNode at hdn; cases hdn
        | comment s => unfold dropEmptyNode at hdn; cases hdn
      simp [strippedEmptyForest, hne, strippedEmpty_dropForest ex f]
    | some n2 =>
      simp [strippedEmptyForest, strippedEmpty_dropNode ex n n2 hdn,
        strippedEmpty_dropForest ex f]
end

mutual
theorem dropEmptyNode_idem (ex : List String) :
    ∀ (n n2 : HNode), dropEmptyNode ex n = some n2 → dropEmptyNode ex n2 = some n2
  | .tag nm attrs cs, n2, h => by
    unfold dropEmptyNode at h
    split at h
    · cases h
    · rename_i hcond
      injection h with h2
      subst h2
      unfold dropEmptyNode
      rw [if_neg (by rw [strippedEmpty_dropForest ex cs]; exact hcond),
        dropEmptyForest_idem ex cs]
  | .text s, n2, h => by
    unfold dropEmptyNode at h
    injection h with h2
    subst h2
    rfl
  | .comment s, n2, h => by
    unfold dropEmptyNode at h
    injection h with h2
    subst h2
    rfl
theorem dropEmptyForest_idem (ex : List String) :
    ∀ (f : HForest), dropEmptyForest ex (dropEmptyForest ex f) = dropEmptyForest ex f
  | .nil => rfl
  | .cons n f => by
    rw [dropEmptyForest_cons]
    cases hdn : dropEmptyNode ex n with
    | none => exact dropEmptyForest_idem ex f
    | some n2 =>
      show dropEmptyForest ex (HForest.cons n2 (dropEmptyForest ex f)) =
        HForest.cons n2 (dropEmptyForest ex f)
      rw [dropEmptyForest_cons, dropEmptyNode_idem ex n n2 hdn]
      show HForest.cons n2 (dropEmptyForest ex (dropEmptyForest ex f)) =
        HForest.cons n2 (dropEmptyForest ex f)
      rw [dropEmptyForest_idem ex f]
end

/-- Claim C7: the markup normalizer is idempotent: applying the clean_html
pipeline (denylist removal, wrapper excision, comment removal, empty-node
removal) to an already-normalized document forest returns that forest
unchanged. -/
theorem c7_clean_html_idempotent (f : HForest) :
    clean_html (clean_html f) = clean_html f := by
  have hD : noBadForest (tagBad discardPred)
      (removeForest (tagBad discardPred) f) = true := noBad_removeForest _ f
  have hDE := noBad_exciseForest_preserve (tagBad discardPred) excisePred _ hD
  have hDEC := noBad_removeForest_preserve (tagBad discardPred) commentBad _ hDE
  have hDECM := noBad_dropEmptyForest_preserve (tagBad discardPred) [] _ hDEC
  have hQ : noBadForest (tagBad excisePred)
      (exciseForest excisePred (removeForest (tagBad discardPred) f)) = true :=
    noQ_exciseForest _ _
  have hQC := noBad_removeForest_preserve (tagBad excisePred) commentBad _ hQ
  have hQCM := noBad_dropEmptyForest_preserve (tagBad excisePred) [] _ hQC
  have hC : noBadForest commentBad
      (removeForest commentBad
        (exciseForest excisePred (removeForest (tagBad discardPred) f))) = true :=
    noBad_removeForest _ _
  have hCM := noBad_dropEmptyForest_preserve commentBad [] _ hC
  show dropEmptyForest []
      (removeForest commentBad
        (exciseForest excisePred
          (removeForest (tagBad discardPred) (clean_html f)))) = clean_html f
  rw [show removeForest (tagBad discardPred) (clean_html f) = clean_html f from
    removeForest_of_noBad _ _ hDECM]
  rw [show exciseForest excisePred (clean_html f) = clean_html f from
    exciseForest_of_noQ _ _ hQCM]
  rw [show removeForest commentBad (clean_html f) = clean_html f from
    removeForest_of_noBad _ _ hCM]
  exact dropEmptyForest_idem [] _

end Wikt